import Mathlib

/-!
Verification of the Rork.app chat code-exporter script (`src/script.js`).

The script walks a rendered file tree, extracts each file's content (text via a
direct read of the code block with a clipboard fallback, binary via a base64
data-URL preview) and accumulates entries into a ZIP archive.  The embedding
below translates the script's pure decision logic: the DOM environment observed
for each item (displayed text, copy button, focus, clipboard, preview image) is
made explicit as data, and processing is a pure function from that data to the
sequence of UI events and archive additions the script performs.
-/

namespace RorkExport

/-- Whitespace test used to model JavaScript's `String.prototype.trim`
(the ASCII whitespace characters relevant to the extracted text). -/
def isWS (c : Char) : Bool :=
  c == ' ' || c == '\t' || c == '\n' || c == '\r'

/-- Drop whitespace from both ends of a character list: the model of
JavaScript `s.trim()` (`script.js` uses `.trim()` on extracted text). -/
def trimList (l : List Char) : List Char :=
  ((l.dropWhile isWS).reverse.dropWhile isWS).reverse

/-- `jsTrim s` models the JavaScript expression `s.trim()`. -/
def jsTrim (s : String) : String := ⟨trimList s.data⟩

/-- `afterSub pat l` models JavaScript `l.indexOf(pat)` followed by
`l.substring(index + pat.length)`: `some suf` when `pat` occurs in `l`
(`suf` is everything after the first occurrence), `none` when it does not. -/
def afterSub (pat : List Char) : List Char → Option (List Char)
  | [] => if pat = [] then some [] else none
  | c :: rest =>
    if pat.isPrefixOf (c :: rest) then some ((c :: rest).drop pat.length)
    else afterSub pat rest

/-- `containsSub s pat` models JavaScript `s.includes(pat)`
(equivalently `s.indexOf(pat) > -1`). -/
def containsSub (s pat : String) : Bool := (afterSub pat.data s.data).isSome

/-- `startsWithStr s pat` models JavaScript `s.startsWith(pat)`. -/
def startsWithStr (s pat : String) : Bool := pat.data.isPrefixOf s.data

/-- First half of the false-positive signature checked at `script.js:206`
and `script.js:233`. -/
def boilerA : String := "Created constants/colors.ts"

/-- Second half of the false-positive signature checked at `script.js:206`
and `script.js:233`. -/
def boilerB : String := "Created components/"

/-- The false-positive filter of `script.js:206` / `script.js:233`:
`text.includes("Created constants/colors.ts") && text.includes("Created components/")`. -/
def suspicious (s : String) : Bool := containsSub s boilerA && containsSub s boilerB

/-- The length sanity check `text.trim().length > 1` of `script.js:206` /
`script.js:233`. -/
def nonTrivial (s : String) : Bool := decide (1 < (trimList s.data).length)

/-- The full acceptance test applied to direct-read and clipboard text at
`script.js:206` and `script.js:233`:
`text.trim().length > 1 && !(text.includes(boilerA) && text.includes(boilerB))`. -/
def acceptText (s : String) : Bool := nonTrivial s && !suspicious s

/-- The `binaryFileExtensions` array of `script.js:63-79`. -/
def binaryFileExtensions : List String :=
  [".png", ".jpg", ".jpeg", ".gif", ".bmp", ".webp", ".svg", ".ico",
   ".mp3", ".wav", ".ogg", ".aac",
   ".mp4", ".mov", ".avi", ".webm", ".mkv",
   ".pdf", ".doc", ".docx", ".xls", ".xlsx", ".ppt", ".pptx",
   ".zip", ".gz", ".tar", ".rar", ".7z",
   ".woff", ".woff2", ".eot", ".ttf", ".otf",
   ".exe", ".dll", ".app", ".dmg", ".iso"]

/-- ASCII lower-casing of one character, as JavaScript `toLowerCase`
acts on the ASCII file names handled by the script. -/
def lowerChar (c : Char) : Char :=
  if 'A' ≤ c ∧ c ≤ 'Z' then Char.ofNat (c.toNat + 32) else c

/-- `lowerStr s` models JavaScript `s.toLowerCase()` on ASCII names. -/
def lowerStr (s : String) : String := ⟨s.data.map lowerChar⟩

/-- The suffix of the list starting at its last `'.'` (inclusive), `none`
when no `'.'` occurs: the model of `itemName.lastIndexOf('.')` followed by
`itemName.substring(dotIndex)` at `script.js:155-157`. -/
def extSuffix : List Char → Option (List Char)
  | [] => none
  | c :: rest =>
    match extSuffix rest with
    | some e => some e
    | none => if c = '.' then some (c :: rest) else none

/-- The extension computation of `script.js:154-158`: `fileExtension` is
`itemName.substring(dotIndex).toLowerCase()` when
`dotIndex > -1 && dotIndex < itemName.length - 1` (the suffix starting at
the last dot has at least two characters), and `''` otherwise. -/
def fileExtension (name : String) : String :=
  match extSuffix name.data with
  | some e => if 2 ≤ e.length then lowerStr ⟨e⟩ else ""
  | none => ""

/-- The classification test of `script.js:161`:
`binaryFileExtensions.includes(fileExtension)`. -/
def isBinaryName (name : String) : Bool :=
  binaryFileExtensions.contains (fileExtension name)

/-- The classifier's extension rule as the specification words it: the
lowercased substring from the last `'.'` onward, taken only when that `'.'`
is not the final character (i.e. some character follows it); empty otherwise. -/
def specExtension (name : String) : String :=
  let afterDot := (name.data.reverse.takeWhile (fun c => c != '.')).reverse
  if '.' ∈ name.data ∧ afterDot ≠ [] then lowerStr ⟨'.' :: afterDot⟩ else ""

example : fileExtension "app.ts" = ".ts" := by decide
example : fileExtension ".png" = ".png" := by decide
example : fileExtension "abc." = "" := by decide
example : fileExtension "a.PNG" = ".png" := by decide
example : fileExtension "noext" = "" := by decide
example : isBinaryName "x.woff2" = true := by decide
example : isBinaryName "index.tsx" = false := by decide
example : specExtension "a.b.c" = ".c" := by decide
example : specExtension ".png" = ".png" := by decide
example : specExtension "abc." = "" := by decide
example : suspicious "Created constants/colors.ts and Created components/x" = true := by decide
example : acceptText "export const x=1;" = true := by decide
example : jsTrim "  a b \n" = "a b" := by decide

/-- A payload handed to `zip.file`: either plain text (`zip.file(path, code)`)
or base64 data added with the `{ base64: true }` option
(`zip.file(filePath, base64Data, { base64: true })` at `script.js:177`). -/
inductive Payload where
  | text (s : String) : Payload
  | base64Data (s : String) : Payload
  deriving Repr, DecidableEq

/-- One `zip.file(path, payload)` call: an archive addition. -/
structure ZipOp where
  path : String
  payload : Payload
  deriving Repr, DecidableEq

/-- The observable actions `processDirectory` performs for one item:
expansion clicks on folder buttons, selection clicks on file buttons,
copy-button clicks, clipboard reads, and archive additions. -/
inductive Event where
  | expandClick (name : String) : Event
  | selectClick (path : String) : Event
  | copyClick (path : String) : Event
  | clipboardRead (path : String) : Event
  | add (op : ZipOp) : Event
  deriving Repr, DecidableEq

/-- The DOM environment the script observes after clicking one file button:
`codeDiv` is the CodeMirror block's `innerText` (`none` when
`document.querySelector(codeBlockSelector)` is `null`); `copyBtn` whether a
copy button is found; `hasFocus` the value of `document.hasFocus()`;
`clipboard` the text `navigator.clipboard.readText()` resolves to (`none`
when the read throws); `preview` the `src` of the preview `img` element
(`none` when no such element exists); `zipRejects` `some msg` when
`zip.file` for the decoded binary payload throws an error with message
`msg` (`script.js:179`). -/
structure FileEnv where
  codeDiv : Option String
  copyBtn : Bool
  hasFocus : Bool
  clipboard : Option String
  preview : Option String
  zipRejects : Option String
  deriving Repr, DecidableEq

/-- The DOM environment observed for one folder button: `needsExpand` is
`data-state === 'closed' || aria-expanded === 'false'` before the click
(`script.js:121`); `opensOnClick` whether after the click and the settle
delay `data-state` is no longer `'closed'` (`script.js:126`); `contentOk`
whether the `aria-controls` region is found, open, and contains the
nested items container (`script.js:133-139`). -/
structure FolderEnv where
  needsExpand : Bool
  opensOnClick : Bool
  contentOk : Bool
  deriving Repr, DecidableEq

/-- One rendered item wrapper: a file button with its observed environment,
a folder button with its children, or a wrapper with no usable button
(no button element, or a button that is neither folder nor file). -/
inductive Item where
  | file (name : String) (env : FileEnv) : Item
  | folder (name : String) (fe : FolderEnv) (children : List Item) : Item
  | other : Item

/-- The direct-text fallback `if (!code.trim() && codeDiv) code = codeDiv.innerText`
used in every failure branch of the clipboard attempt
(`script.js:238`, `script.js:242`, `script.js:247`, `script.js:251`). -/
def directFallback (env : FileEnv) : String := env.codeDiv.getD ""

/-- The clipboard fallback of `script.js:215-253`, reached when the direct
read produced no accepted text: click the copy button when present, read the
clipboard only when the document has focus, accept the clipboard text under
the same sanity filter, and otherwise fall back to the raw direct text.
Returns the emitted events together with the resulting `code` value. -/
def clipboardPhase (filePath : String) (env : FileEnv) : List Event × String :=
  if env.copyBtn then
    if env.hasFocus then
      match env.clipboard with
      | some clip =>
        if acceptText clip then
          ([Event.copyClick filePath, Event.clipboardRead filePath], clip)
        else
          ([Event.copyClick filePath, Event.clipboardRead filePath], directFallback env)
      | none =>
        ([Event.copyClick filePath, Event.clipboardRead filePath], directFallback env)
    else ([Event.copyClick filePath], directFallback env)
  else ([], directFallback env)

/-- The diagnostic payload written at `script.js:261`. -/
def extractionFailedText (filePath : String) : String :=
  "// Code extraction failed for " ++ filePath

/-- The direct-read attempt of `script.js:203-212`: the value of `code`
after the first acceptance check — the CodeMirror block's `innerText` when
it passes `acceptText`, and the still-empty `''` otherwise. -/
def directRead (env : FileEnv) : String :=
  match env.codeDiv with
  | some d => if acceptText d then d else ""
  | none => ""

/-- The state after the optional clipboard fallback (`script.js:215-253`):
the fallback runs exactly when `!code.trim()` after the direct read. -/
def textStep (filePath : String) (env : FileEnv) : List Event × String :=
  if jsTrim (directRead env) = "" then clipboardPhase filePath env
  else ([], directRead env)

/-- The final `zip.file` call of `script.js:255-262`: the extracted code at
the file's own path when `code.trim()` is non-empty, the
`_extraction_failed.txt` placeholder otherwise. -/
def finalTextOp (filePath : String) (code : String) : ZipOp :=
  if jsTrim code = "" then
    ZipOp.mk (filePath ++ "_extraction_failed.txt")
      (Payload.text (extractionFailedText filePath))
  else ZipOp.mk filePath (Payload.text code)

/-- Text-file handling of `script.js:194-262`: click the file, try the
direct read (accepted under `acceptText`), fall back to the clipboard
attempt when rejected or empty, and finally add either the extracted code
at the file's own path or the `_extraction_failed.txt` placeholder. -/
def processTextFile (filePath : String) (env : FileEnv) : List Event :=
  Event.selectClick filePath ::
    ((textStep filePath env).1 ++
      [Event.add (finalTextOp filePath (textStep filePath env).2)])

/-- The base64 marker `';base64,'` searched for at `script.js:170-171`. -/
def b64marker : String := ";base64,"

/-- The three outcomes of binary extraction (`script.js:166-190`). -/
inductive BinResult where
  | decoded (b64 : String) : BinResult
  | notBase64 : BinResult
  | notFound : BinResult
  deriving Repr, DecidableEq

/-- Binary extraction of `script.js:166-175`: the preview `img` must exist,
have a non-empty `src` starting with `'data:'`; when the `src` contains
`';base64,'` the payload is everything after the first occurrence, otherwise
the preview is present but not decodable; when no such `img`/`src` exists
there is no preview. -/
def extractBinary (preview : Option String) : BinResult :=
  match preview with
  | some src =>
    if src ≠ "" ∧ startsWithStr src "data:" then
      match afterSub b64marker.data src.data with
      | some suf => BinResult.decoded ⟨suf⟩
      | none => BinResult.notBase64
    else BinResult.notFound
  | none => BinResult.notFound

/-- The single `zip.file` call the binary branch performs
(`script.js:161-191`): the decoded payload at the file's own path (or the
`_zip_error.txt` placeholder when the encoder throws at `script.js:179`),
the `_preview_not_base64.txt` placeholder, or the `_preview_not_found.txt`
placeholder. -/
def finalBinaryOp (filePath : String) (env : FileEnv) : ZipOp :=
  match extractBinary env.preview with
  | BinResult.decoded b =>
    match env.zipRejects with
    | some msg =>
      ZipOp.mk (filePath ++ "_zip_error.txt")
        (Payload.text ("// Failed to add binary data for " ++ filePath ++
          " to ZIP.\n// Error: " ++ msg))
    | none => ZipOp.mk filePath (Payload.base64Data b)
  | BinResult.notBase64 =>
    ZipOp.mk (filePath ++ "_preview_not_base64.txt")
      (Payload.text ("// Image preview found for " ++ filePath ++
        ", but it was not Base64 encoded."))
  | BinResult.notFound =>
    ZipOp.mk (filePath ++ "_preview_not_found.txt")
      (Payload.text
        "// Binary file detected, but preview image with Data URL was not found.")

/-- Binary-file handling of `script.js:161-191`: click the file, then add
exactly one entry determined by the preview extraction. -/
def processBinaryFile (filePath : String) (env : FileEnv) : List Event :=
  [Event.selectClick filePath, Event.add (finalBinaryOp filePath env)]

mutual

/-- `processDirectory`'s handling of one item wrapper (`script.js:88-264`):
skip wrappers without a usable button or name; for folders, click to expand
when closed, skip the subtree when the folder still reports closed after the
settle delay (`script.js:126-128`) or when the content region is unusable,
and recurse otherwise; for files, dispatch on the binary classification. -/
def processItem (currentPath : String) : Item → List Event
  | Item.other => []
  | Item.file name env =>
    if name = "" then []
    else if isBinaryName name then processBinaryFile (currentPath ++ name) env
    else processTextFile (currentPath ++ name) env
  | Item.folder name fe children =>
    if name = "" then []
    else
      let folderPath := currentPath ++ name ++ "/"
      if fe.needsExpand then
        Event.expandClick name ::
          (if fe.opensOnClick then
            (if fe.contentOk then processList folderPath children else [])
          else [])
      else if fe.contentOk then processList folderPath children else []

/-- The `for (const itemWrapper of itemsWrappers)` loop of `script.js:88`. -/
def processList (currentPath : String) : List Item → List Event
  | [] => []
  | i :: rest => processItem currentPath i ++ processList currentPath rest

end

/-- The archive additions among a list of events. -/
def entriesOf (evs : List Event) : List ZipOp :=
  evs.filterMap fun e =>
    match e with
    | Event.add op => some op
    | _ => none

/-- Modelled from the spec: the Archive Assembler is JSZip, an external
collaborator loaded from a CDN and not part of this repository's sources.
Per the spec's data-model section, the Archive is an insertion-ordered
mapping from `fullPath` to entry where `add` overwrites any existing entry
at the same `fullPath` (last-write-wins) and preserves insertion order
otherwise.  `addEntry` replaces the entry in place when the path is already
present and appends at the end when it is not. -/
def addEntry (ar : List ZipOp) (op : ZipOp) : List ZipOp :=
  if ar.any (fun e => e.path == op.path) then
    ar.map fun e => if e.path == op.path then op else e
  else ar ++ [op]

/-- The archive obtained by performing a sequence of `zip.file` additions
in order, starting from the empty archive (`new JSZip()`). -/
def buildArchive (ops : List ZipOp) : List ZipOp := ops.foldl addEntry []

/-- Keep only the first occurrence of each element, preserving order. -/
def keepFirst : List String → List String
  | [] => []
  | p :: rest => p :: keepFirst (rest.filter fun q => q != p)
termination_by l => l.length
decreasing_by
  simp only [List.length_cons]
  exact Nat.lt_succ_of_le (List.length_filter_le _ _)

/-- Outcome of one whole run of the script's main block
(`script.js:269-326`): exactly one archive artifact generated and
downloaded, the distinguished "no files were added" alert, or the
`catch`-block abort with an error message. -/
inductive RunOutcome where
  | artifact (entries : List ZipOp) : RunOutcome
  | nothingExported : RunOutcome
  | aborted (msg : String) : RunOutcome
  deriving Repr, DecidableEq

/-- The main execution block of `script.js:269-326`: abort when JSZip or
the root file-tree container is unavailable; otherwise process the tree
from the root with the empty path, then either generate exactly one ZIP
artifact (when at least one entry was added) or surface the distinguished
"nothing exported" alert. -/
def exportRun (jszipOk : Bool) (rootFound : Bool) (items : List Item) : RunOutcome :=
  if !jszipOk then
    RunOutcome.aborted "JSZip is not defined globally after loading. Cannot create ZIP."
  else if !rootFound then
    RunOutcome.aborted "Root file tree container not found."
  else
    let ar := buildArchive (entriesOf (processList "" items))
    if 0 < ar.length then RunOutcome.artifact ar else RunOutcome.nothingExported

example :
    processTextFile "a.ts" (FileEnv.mk (some "export const x=1;") false false none none none)
      = [Event.selectClick "a.ts", Event.add (ZipOp.mk "a.ts" (Payload.text "export const x=1;"))] := by
  decide

example :
    entriesOf (processItem "app/"
      (Item.file "y.png"
        (FileEnv.mk none false false none (some "data:image/png;base64,AAA=") none)))
      = [ZipOp.mk "app/y.png" (Payload.base64Data "AAA=")] := by
  decide

example :
    entriesOf (processItem ""
      (Item.file "y.png" (FileEnv.mk none false false none none none)))
      = [ZipOp.mk "y.png_preview_not_found.txt"
          (Payload.text "// Binary file detected, but preview image with Data URL was not found.")] := by
  decide

example :
    buildArchive [ZipOp.mk "a" (Payload.text "1"), ZipOp.mk "b" (Payload.text "2"),
        ZipOp.mk "a" (Payload.text "3")]
      = [ZipOp.mk "a" (Payload.text "3"), ZipOp.mk "b" (Payload.text "2")] := by
  decide

example :
    exportRun true true [Item.file "x.ts" (FileEnv.mk (some "let x=1;") false false none none none)]
      = RunOutcome.artifact [ZipOp.mk "x.ts" (Payload.text "let x=1;")] := by
  decide

example : exportRun true true [] = RunOutcome.nothingExported := by decide

/-! ### Whitespace and trimming lemmas -/

lemma filter_nonWS_dropWhile (l : List Char) :
    (l.dropWhile isWS).filter (fun c => !isWS c) = l.filter (fun c => !isWS c) := by
  conv_rhs => rw [← List.takeWhile_append_dropWhile isWS l]
  rw [List.filter_append]
  have h : (l.takeWhile isWS).filter (fun c => !isWS c) = [] := by
    rw [List.filter_eq_nil_iff]
    intro a ha
    simp [List.mem_takeWhile_imp ha]
  rw [h, List.nil_append]

/-- Trimming removes only whitespace: the non-whitespace characters are
unchanged. -/
lemma filter_nonWS_trimList (l : List Char) :
    (trimList l).filter (fun c => !isWS c) = l.filter (fun c => !isWS c) := by
  show ((((l.dropWhile isWS).reverse.dropWhile isWS).reverse).filter fun c => !isWS c) = _
  rw [List.filter_reverse, filter_nonWS_dropWhile, List.filter_reverse,
    filter_nonWS_dropWhile, List.reverse_reverse]

/-- A string with more than one non-whitespace character passes the
`trim().length > 1` check. -/
lemma nonTrivial_of_filter (s : String)
    (h : 1 < (s.data.filter fun c => !isWS c).length) : nonTrivial s = true := by
  have h1 : ((trimList s.data).filter fun c => !isWS c).length
      = (s.data.filter fun c => !isWS c).length :=
    congrArg List.length (filter_nonWS_trimList s.data)
  have h3 : 1 < ((trimList s.data).filter fun c => !isWS c).length := by rw [h1]; exact h
  have h4 := lt_of_lt_of_le h3 (List.length_filter_le (fun c => !isWS c) (trimList s.data))
  unfold nonTrivial
  exact decide_eq_true h4

lemma jsTrim_ne_empty_of_nonTrivial (s : String) (h : nonTrivial s = true) :
    jsTrim s ≠ "" := by
  intro he
  have hd : trimList s.data = [] := congrArg String.data he
  have h1 : 1 < (trimList s.data).length := of_decide_eq_true h
  rw [hd] at h1
  simp at h1

/-! ### Shape lemmas for the text pipeline -/

lemma entriesOf_shape (p : String) (evs : List Event) (op : ZipOp) :
    entriesOf (Event.selectClick p :: (evs ++ [Event.add op])) = entriesOf evs ++ [op] := by
  simp [entriesOf]

/-- The clipboard attempt emits no archive additions of its own. -/
lemma entriesOf_clipboardPhase (fp : String) (env : FileEnv) :
    entriesOf (clipboardPhase fp env).1 = [] := by
  cases hc : env.copyBtn <;> cases hf : env.hasFocus <;> cases hcl : env.clipboard <;>
    simp [clipboardPhase, entriesOf, hc, hf, hcl, apply_ite]

/-- When the clipboard never yields accepted text, the clipboard attempt's
resulting `code` is the raw direct-text fallback. -/
lemma clipboardPhase_snd (fp : String) (env : FileEnv)
    (hclip : ∀ clip, env.clipboard = some clip → acceptText clip = false) :
    (clipboardPhase fp env).2 = directFallback env := by
  cases hcl : env.clipboard with
  | none => cases hc : env.copyBtn <;> cases hf : env.hasFocus <;>
      simp [clipboardPhase, hc, hf, hcl]
  | some clip =>
    have hrej := hclip clip hcl
    cases hc : env.copyBtn <;> cases hf : env.hasFocus <;>
      simp [clipboardPhase, hc, hf, hcl, hrej]

/-- C3: for a text leaf where the direct read yields text with more than one
non-whitespace character that does not match the false-positive signature,
the clipboard fallback is never invoked (no copy-button click, no clipboard
read occurs) and the recorded entry is the direct-read text at the leaf's
own path. -/
theorem direct_read_short_circuits (fp : String) (env : FileEnv) (d : String)
    (hdiv : env.codeDiv = some d)
    (hlen : 1 < (d.data.filter fun c => !isWS c).length)
    (hsig : suspicious d = false) :
    processTextFile fp env
        = [Event.selectClick fp, Event.add (ZipOp.mk fp (Payload.text d))]
      ∧ Event.copyClick fp ∉ processTextFile fp env
      ∧ Event.clipboardRead fp ∉ processTextFile fp env := by
  have hnt := nonTrivial_of_filter d hlen
  have hacc : acceptText d = true := by unfold acceptText; rw [hnt, hsig]; rfl
  have hne := jsTrim_ne_empty_of_nonTrivial d hnt
  have hmain : processTextFile fp env
      = [Event.selectClick fp, Event.add (ZipOp.mk fp (Payload.text d))] := by
    simp [processTextFile, textStep, directRead, finalTextOp, hdiv, hacc, hne]
  refine ⟨hmain, ?_, ?_⟩ <;> rw [hmain] <;> simp

/-- Witness for C3 at a concrete leaf whose environment does offer a copy
button, focus and clipboard content: the direct read still wins. -/
theorem direct_read_short_circuits_witness :
    processTextFile "a.ts" (FileEnv.mk (some "let x=1;") true true (some "clip text") none none)
      = [Event.selectClick "a.ts", Event.add (ZipOp.mk "a.ts" (Payload.text "let x=1;"))] :=
  (direct_read_short_circuits "a.ts"
    (FileEnv.mk (some "let x=1;") true true (some "clip text") none none)
    "let x=1;" rfl (by decide) (by decide)).1

/-- C4: a folder that still reports itself closed after the single expansion
click is not retried: processing emits exactly that one click, terminates,
and the folder's whole subtree contributes zero archive entries. -/
theorem expansion_stall_skipped (cp name : String) (fe : FolderEnv) (children : List Item)
    (hname : name ≠ "") (hclosed : fe.needsExpand = true) (hstall : fe.opensOnClick = false) :
    processItem cp (Item.folder name fe children) = [Event.expandClick name]
      ∧ entriesOf (processItem cp (Item.folder name fe children)) = [] := by
  have h : processItem cp (Item.folder name fe children) = [Event.expandClick name] := by
    simp [processItem, hname, hclosed, hstall]
  exact ⟨h, by rw [h]; rfl⟩

/-- Witness for C4: a stalled folder with a non-empty subtree yields one
expansion click and no entries. -/
theorem expansion_stall_skipped_witness :
    processItem "" (Item.folder "src" (FolderEnv.mk true false true)
        [Item.file "x.ts" (FileEnv.mk (some "let x=1;") false false none none none)])
      = [Event.expandClick "src"] :=
  (expansion_stall_skipped "" "src" (FolderEnv.mk true false true)
    [Item.file "x.ts" (FileEnv.mk (some "let x=1;") false false none none none)]
    (by decide) rfl rfl).1

/-- C2 counterexample: for a leaf whose name reads back empty, the script
records nothing at all — no Placeholder ArchiveEntry is added for it,
contrary to the claim. -/
theorem nameless_leaf_no_placeholder :
    entriesOf (processItem "" (Item.file "" (FileEnv.mk none true true none none none))) = [] := by
  decide

/-- C2 amended: a leaf whose name cannot be resolved is skipped entirely
(`continue` at `script.js:110-113`): no ArchiveEntry of any kind is recorded
for it, and processing of the remaining items continues unaffected. -/
theorem nameless_leaf_skipped (cp : String) (env : FileEnv) (rest : List Item) :
    processItem cp (Item.file "" env) = []
      ∧ processList cp (Item.file "" env :: rest) = processList cp rest := by
  constructor
  · simp [processItem]
  · simp [processList, processItem]

/-- A displayed text that matches the false-positive signature. -/
def boilerplateText : String :=
  "Created constants/colors.ts\nCreated components/Button.tsx"

/-- C1 counterexample: a text leaf whose displayed text matches the
boilerplate signature.  Both acceptance checks reject the text, yet the
fallback `code = codeDiv.innerText` restores it, so the recorded entry is
the boilerplate text itself at the leaf's own path — not a Placeholder. -/
theorem boilerplate_recorded_counterexample :
    suspicious boilerplateText = true
      ∧ entriesOf (processItem "" (Item.file "index.ts"
            (FileEnv.mk (some boilerplateText) false false none none none)))
          = [ZipOp.mk "index.ts" (Payload.text boilerplateText)] := by
  constructor
  · decide
  · decide

/-- C1 amended: text matching the boilerplate signature is rejected by the
acceptance checks of both the direct and the clipboard strategy, but when
the clipboard attempt yields no accepted text either, the fallback
(`script.js:238/242/247/251`) re-assigns the raw displayed text, so the
recorded entry is the boilerplate text at the leaf's own path, not a
Placeholder. -/
theorem boilerplate_fallback_records_direct (fp : String) (env : FileEnv) (d : String)
    (hdiv : env.codeDiv = some d)
    (hsig : suspicious d = true)
    (htrim : jsTrim d ≠ "")
    (hclip : ∀ clip, env.clipboard = some clip → acceptText clip = false) :
    acceptText d = false
      ∧ entriesOf (processTextFile fp env) = [ZipOp.mk fp (Payload.text d)] := by
  have hacc : acceptText d = false := by unfold acceptText; rw [hsig]; simp
  refine ⟨hacc, ?_⟩
  have hsnd : (clipboardPhase fp env).2 = d := by
    rw [clipboardPhase_snd fp env hclip]
    unfold directFallback
    rw [hdiv]
    rfl
  have hdr : directRead env = "" := by unfold directRead; rw [hdiv]; simp [hacc]
  have hstep : textStep fp env = clipboardPhase fp env := by
    unfold textStep
    rw [hdr]
    exact if_pos rfl
  unfold processTextFile
  rw [hstep, hsnd, entriesOf_shape, entriesOf_clipboardPhase, List.nil_append]
  unfold finalTextOp
  rw [if_neg htrim]

/-! ### Archive lookup lemmas -/

lemma append_ne_self (s t : String) (ht : t ≠ "") : s ++ t ≠ s := by
  intro h
  have hd : s.data ++ t.data = s.data ++ [] := by
    have := congrArg String.data h
    simpa using this
  exact ht (String.ext (List.append_cancel_left hd))

lemma find?_map_replace_ne (ar : List ZipOp) (op : ZipOp) (q : String) (hq : q ≠ op.path) :
    ((ar.map fun e => if e.path == op.path then op else e).find? fun e => e.path == q)
      = ar.find? fun e => e.path == q := by
  induction ar with
  | nil => rfl
  | cons a t ih =>
    simp only [List.map_cons]
    by_cases ha : (a.path == op.path) = true
    · have hae : a.path = op.path := eq_of_beq ha
      have e1 : (op.path == q) = false := beq_eq_false_iff_ne.mpr (Ne.symm hq)
      have e2 : (a.path == q) = false := by rw [hae]; exact e1
      rw [if_pos ha,
        @List.find?_cons_of_neg _ (fun e => e.path == q) op _ (by simp [e1]),
        @List.find?_cons_of_neg _ (fun e => e.path == q) a t (by simp [e2])]
      exact ih
    · rw [if_neg ha]
      cases h2 : (a.path == q)
      · rw [@List.find?_cons_of_neg _ (fun e => e.path == q) a _ (by simp [h2]),
          @List.find?_cons_of_neg _ (fun e => e.path == q) a t (by simp [h2])]
        exact ih
      · rw [@List.find?_cons_of_pos _ (fun e => e.path == q) a _ h2,
          @List.find?_cons_of_pos _ (fun e => e.path == q) a t h2]

lemma find?_map_replace_eq (ar : List ZipOp) (op : ZipOp)
    (h : ar.any (fun e => e.path == op.path) = true) :
    ((ar.map fun e => if e.path == op.path then op else e).find? fun e => e.path == op.path)
      = some op := by
  induction ar with
  | nil => simp at h
  | cons a t ih =>
    simp only [List.map_cons]
    by_cases ha : (a.path == op.path) = true
    · rw [if_pos ha,
        @List.find?_cons_of_pos _ (fun e => e.path == op.path) op _ (beq_self_eq_true op.path)]
    · have ha' : (a.path == op.path) = false := by
        cases hb : (a.path == op.path)
        · rfl
        · exact absurd hb ha
      have h' : t.any (fun e => e.path == op.path) = true := by
        rw [List.any_cons, ha'] at h
        simpa using h
      rw [if_neg ha, @List.find?_cons_of_neg _ (fun e => e.path == op.path) a _ ha]
      exact ih h'

lemma addEntry_find?_ne (ar : List ZipOp) (op : ZipOp) (q : String) (hq : q ≠ op.path) :
    ((addEntry ar op).find? fun e => e.path == q) = ar.find? fun e => e.path == q := by
  unfold addEntry
  split
  · exact find?_map_replace_ne ar op q hq
  · rw [List.find?_append]
    have h1 : ([op].find? fun e => e.path == q) = none := by
      simp [List.find?, beq_eq_false_iff_ne.mpr (Ne.symm hq)]
    rw [h1, Option.or_none]

lemma addEntry_find?_eq (ar : List ZipOp) (op : ZipOp) :
    ((addEntry ar op).find? fun e => e.path == op.path) = some op := by
  unfold addEntry
  split
  · rename_i h
    exact find?_map_replace_eq ar op h
  · rename_i h
    have hf : ar.any (fun e => e.path == op.path) = false := by simpa using h
    rw [List.find?_append]
    have h1 : (ar.find? fun e => e.path == op.path) = none := by
      rw [List.find?_eq_none]
      intro x hx
      exact fun hb => (List.any_eq_false.mp hf x hx) hb
    rw [h1]
    simp [List.find?]

/-! ### Entry-shape lemmas -/

/-- The text branch adds exactly one entry: `finalTextOp` of the resulting
code. -/
lemma entriesOf_processTextFile (fp : String) (env : FileEnv) :
    entriesOf (processTextFile fp env) = [finalTextOp fp (textStep fp env).2] := by
  unfold processTextFile
  rw [entriesOf_shape]
  have h : entriesOf (textStep fp env).1 = [] := by
    unfold textStep
    split
    · exact entriesOf_clipboardPhase fp env
    · rfl
  rw [h, List.nil_append]

lemma finalTextOp_path (fp code : String) :
    (finalTextOp fp code).path = fp ∨ (finalTextOp fp code).path = fp ++ "_extraction_failed.txt" := by
  unfold finalTextOp
  split
  · right; rfl
  · left; rfl

lemma entriesOf_processBinaryFile (fp : String) (env : FileEnv) :
    entriesOf (processBinaryFile fp env) = [finalBinaryOp fp env] := rfl

lemma finalBinaryOp_path (fp : String) (env : FileEnv) :
    (finalBinaryOp fp env).path = fp
      ∨ (finalBinaryOp fp env).path = fp ++ "_preview_not_found.txt"
      ∨ (finalBinaryOp fp env).path = fp ++ "_preview_not_base64.txt"
      ∨ (finalBinaryOp fp env).path = fp ++ "_zip_error.txt" := by
  unfold finalBinaryOp
  cases extractBinary env.preview with
  | decoded b =>
    cases env.zipRejects with
    | some msg => right; right; right; rfl
    | none => left; rfl
  | notBase64 => right; right; left; rfl
  | notFound => right; left; rfl

/-- C9: every failure placeholder is recorded under the leaf's path with a
non-empty diagnostic suffix appended, hence under a path distinct from the
leaf's own path; and an `addEntry` at a different path leaves the entry
stored at the leaf's own path untouched. -/
theorem failure_placeholder_distinct_path (fp : String) (env : FileEnv) :
    (∀ op ∈ entriesOf (processTextFile fp env),
        op.path = fp ∨ (op.path = fp ++ "_extraction_failed.txt" ∧ op.path ≠ fp))
      ∧ (∀ op ∈ entriesOf (processBinaryFile fp env),
        op.path = fp ∨
          ((op.path = fp ++ "_preview_not_found.txt" ∨
              op.path = fp ++ "_preview_not_base64.txt" ∨
              op.path = fp ++ "_zip_error.txt") ∧ op.path ≠ fp))
      ∧ (∀ (ar : List ZipOp) (e : ZipOp), e.path ≠ fp →
          ((addEntry ar e).find? fun x => x.path == fp) = ar.find? fun x => x.path == fp) := by
  refine ⟨?_, ?_, ?_⟩
  · intro op hop
    rw [entriesOf_processTextFile] at hop
    have heq : op = finalTextOp fp (textStep fp env).2 := by simpa using hop
    rw [heq]
    rcases finalTextOp_path fp (textStep fp env).2 with h | h
    · left; exact h
    · right
      exact ⟨h, by rw [h]; exact append_ne_self fp "_extraction_failed.txt" (by decide)⟩
  · intro op hop
    rw [entriesOf_processBinaryFile] at hop
    have heq : op = finalBinaryOp fp env := by simpa using hop
    rw [heq]
    rcases finalBinaryOp_path fp env with h | h | h | h
    · left; exact h
    · right
      exact ⟨Or.inl h, by rw [h]; exact append_ne_self fp "_preview_not_found.txt" (by decide)⟩
    · right
      exact ⟨Or.inr (Or.inl h),
        by rw [h]; exact append_ne_self fp "_preview_not_base64.txt" (by decide)⟩
    · right
      exact ⟨Or.inr (Or.inr h), by rw [h]; exact append_ne_self fp "_zip_error.txt" (by decide)⟩
  · intro ar e he
    exact addEntry_find?_ne ar e fp (Ne.symm he)

/-- Witness for C9 at a concrete failing text leaf: its placeholder path
carries the diagnostic suffix and differs from the leaf's own path. -/
theorem failure_placeholder_distinct_path_witness :
    (ZipOp.mk "a.ts_extraction_failed.txt" (Payload.text (extractionFailedText "a.ts"))).path
        = "a.ts"
      ∨ ((ZipOp.mk "a.ts_extraction_failed.txt" (Payload.text (extractionFailedText "a.ts"))).path
            = "a.ts" ++ "_extraction_failed.txt"
          ∧ (ZipOp.mk "a.ts_extraction_failed.txt"
              (Payload.text (extractionFailedText "a.ts"))).path ≠ "a.ts") :=
  (failure_placeholder_distinct_path "a.ts" (FileEnv.mk none false false none none none)).1
    (ZipOp.mk "a.ts_extraction_failed.txt" (Payload.text (extractionFailedText "a.ts")))
    (by decide)

lemma extractBinary_some (src : String) :
    extractBinary (some src)
      = if src ≠ "" ∧ startsWithStr src "data:" = true then
          match afterSub b64marker.data src.data with
          | some suf => BinResult.decoded ⟨suf⟩
          | none => BinResult.notBase64
        else BinResult.notFound := rfl

/-- C5: binary extraction yields exactly one of three mutually exclusive
outcomes — decoded payload (data-URL preview containing `';base64,'`),
"preview present but not decodable" placeholder (data-URL preview without
the marker), and "no preview" placeholder (no data-URL preview at all) —
and the two placeholder variants use distinct paths. -/
theorem binary_preview_trichotomy (fp : String) (env : FileEnv) :
    (∀ src suf, env.preview = some src → src ≠ "" → startsWithStr src "data:" = true →
        afterSub b64marker.data src.data = some suf →
        extractBinary env.preview = BinResult.decoded ⟨suf⟩
          ∧ (env.zipRejects = none →
              entriesOf (processBinaryFile fp env)
                = [ZipOp.mk fp (Payload.base64Data ⟨suf⟩)]))
      ∧ (∀ src, env.preview = some src → src ≠ "" → startsWithStr src "data:" = true →
          afterSub b64marker.data src.data = none →
          extractBinary env.preview = BinResult.notBase64
            ∧ entriesOf (processBinaryFile fp env)
                = [ZipOp.mk (fp ++ "_preview_not_base64.txt")
                    (Payload.text ("// Image preview found for " ++ fp ++
                      ", but it was not Base64 encoded."))])
      ∧ ((∀ src, env.preview = some src → src = "" ∨ startsWithStr src "data:" = false) →
          extractBinary env.preview = BinResult.notFound
            ∧ entriesOf (processBinaryFile fp env)
                = [ZipOp.mk (fp ++ "_preview_not_found.txt")
                    (Payload.text
                      "// Binary file detected, but preview image with Data URL was not found.")])
      ∧ fp ++ "_preview_not_base64.txt" ≠ fp ++ "_preview_not_found.txt" := by
  refine ⟨?_, ?_, ?_, ?_⟩
  · intro src suf hp hne hdata hafter
    have hEx : extractBinary env.preview = BinResult.decoded ⟨suf⟩ := by
      rw [hp, extractBinary_some, if_pos ⟨hne, hdata⟩, hafter]
    refine ⟨hEx, fun hz => ?_⟩
    rw [entriesOf_processBinaryFile]
    unfold finalBinaryOp
    rw [hEx, hz]
  · intro src hp hne hdata hafter
    have hEx : extractBinary env.preview = BinResult.notBase64 := by
      rw [hp, extractBinary_some, if_pos ⟨hne, hdata⟩, hafter]
    refine ⟨hEx, ?_⟩
    rw [entriesOf_processBinaryFile]
    unfold finalBinaryOp
    rw [hEx]
  · intro hall
    have hEx : extractBinary env.preview = BinResult.notFound := by
      cases hp : env.preview with
      | none => rfl
      | some src =>
        rw [extractBinary_some]
        rcases hall src hp with h | h
        · rw [if_neg]
          intro hc
          exact hc.1 h
        · rw [if_neg]
          intro hc
          rw [h] at hc
          exact Bool.false_ne_true hc.2
    refine ⟨hEx, ?_⟩
    rw [entriesOf_processBinaryFile]
    unfold finalBinaryOp
    rw [hEx]
  · intro h
    have hd : ("_preview_not_base64.txt" : String) = "_preview_not_found.txt" := by
      have h1 : fp.data ++ ("_preview_not_base64.txt" : String).data
          = fp.data ++ ("_preview_not_found.txt" : String).data := congrArg String.data h
      exact String.ext (List.append_cancel_left h1)
    exact absurd hd (by decide)

/-- Witness for C5 at a concrete decodable preview. -/
theorem binary_preview_trichotomy_witness :
    extractBinary (some "data:image/png;base64,iVBORw0KGgo=")
        = BinResult.decoded ⟨("iVBORw0KGgo=" : String).data⟩
      ∧ entriesOf (processBinaryFile "y.png"
          (FileEnv.mk none false false none (some "data:image/png;base64,iVBORw0KGgo=") none))
        = [ZipOp.mk "y.png" (Payload.base64Data ⟨("iVBORw0KGgo=" : String).data⟩)] := by
  have h := (binary_preview_trichotomy "y.png"
    (FileEnv.mk none false false none (some "data:image/png;base64,iVBORw0KGgo=") none)).1
    "data:image/png;base64,iVBORw0KGgo=" ("iVBORw0KGgo=" : String).data
    rfl (by decide) (by decide) (by decide)
  exact ⟨h.1, h.2 rfl⟩

/-- Witness for the amended C1 at a concrete boilerplate leaf. -/
theorem boilerplate_fallback_witness :
    entriesOf (processTextFile "app.ts"
        (FileEnv.mk (some boilerplateText) true true (some boilerplateText) none none))
      = [ZipOp.mk "app.ts" (Payload.text boilerplateText)] :=
  (boilerplate_fallback_records_direct "app.ts"
    (FileEnv.mk (some boilerplateText) true true (some boilerplateText) none none)
    boilerplateText rfl (by decide) (by decide)
    (fun clip hc => by
      have : boilerplateText = clip := by
        have := congrArg (fun o => o.getD "") hc
        simpa using this
      rw [← this]
      decide)).2

/-! ### Extension parsing lemmas (C6, C10) -/

lemma extSuffix_cons (x : Char) (l : List Char) :
    extSuffix (x :: l)
      = match extSuffix l with
        | some e => some e
        | none => if x = '.' then some (x :: l) else none := rfl

lemma extSuffix_append_last (l : List Char) (c : Char) :
    extSuffix (l ++ [c])
      = if c = '.' then some [c] else (extSuffix l).map (fun e => e ++ [c]) := by
  induction l with
  | nil =>
    by_cases hc : c = '.'
    · simp [extSuffix, hc]
    · simp [extSuffix, hc]
  | cons x xs ih =>
    show extSuffix (x :: (xs ++ [c])) = _
    rw [extSuffix_cons]
    by_cases hc : c = '.'
    · have h1 : extSuffix (xs ++ [c]) = some [c] := by rw [ih, if_pos hc]
      rw [h1, if_pos hc]
    · have h1 : extSuffix (xs ++ [c]) = (extSuffix xs).map (fun e => e ++ [c]) := by
        rw [ih, if_neg hc]
      cases h2 : extSuffix xs with
      | some e =>
        have h3 : extSuffix (xs ++ [c]) = some (e ++ [c]) := by rw [h1, h2]; rfl
        rw [h3, if_neg hc, extSuffix_cons, h2]
        rfl
      | none =>
        have h3 : extSuffix (xs ++ [c]) = none := by rw [h1, h2]; rfl
        rw [h3, if_neg hc, extSuffix_cons, h2]
        by_cases hx : x = '.'
        · simp [hx]
        · simp [hx]

/-- `extSuffix` computes the suffix starting at the last dot: the reversed
run of non-dot characters at the end of the name, preceded by the dot. -/
lemma extSuffix_eq_spec (l : List Char) :
    extSuffix l
      = if '.' ∈ l then some ('.' :: (l.reverse.takeWhile (fun c => c != '.')).reverse)
        else none := by
  induction l using List.reverseRecOn with
  | nil => simp [extSuffix]
  | append_singleton xs c ih =>
    rw [extSuffix_append_last]
    by_cases hc : c = '.'
    · subst hc
      rw [if_pos rfl, if_pos (by simp)]
      simp [List.takeWhile_cons]
    · rw [if_neg hc, ih]
      by_cases hm : '.' ∈ xs
      · rw [if_pos hm, if_pos (by simp [hm])]
        have hcb : (c != '.') = true := by simp [hc]
        simp [List.takeWhile_cons, hcb]
      · have hnm : '.' ∉ xs ++ [c] := by
          intro hmem
          rcases List.mem_append.mp hmem with hin | hin
          · exact hm hin
          · have hco : '.' = c := by simpa using hin
            exact hc hco.symm
        rw [if_neg hm, if_neg hnm]
        rfl

lemma extSuffix_none_of_not_mem (l : List Char) (h : '.' ∉ l) : extSuffix l = none := by
  rw [extSuffix_eq_spec, if_neg h]

/-- The code's extension computation agrees with the specification's
description of it. -/
lemma fileExtension_eq_specExtension (name : String) :
    fileExtension name = specExtension name := by
  have hspec : specExtension name
      = if '.' ∈ name.data ∧ (name.data.reverse.takeWhile fun c => c != '.').reverse ≠ [] then
          lowerStr ⟨'.' :: (name.data.reverse.takeWhile fun c => c != '.').reverse⟩
        else "" := rfl
  rw [hspec]
  unfold fileExtension
  rw [extSuffix_eq_spec]
  by_cases h : '.' ∈ name.data
  · rw [if_pos h]
    show (if 2 ≤ ('.' :: (name.data.reverse.takeWhile fun c => c != '.').reverse).length then
        lowerStr ⟨'.' :: (name.data.reverse.takeWhile fun c => c != '.').reverse⟩ else "") = _
    by_cases hrn : (name.data.reverse.takeWhile fun c => c != '.').reverse = []
    · rw [hrn, if_neg (by decide), if_neg (fun hand => hand.2 rfl)]
    · have hlen : 2 ≤ ('.' :: (name.data.reverse.takeWhile fun c => c != '.').reverse).length := by
        cases hr : (name.data.reverse.takeWhile fun c => c != '.').reverse with
        | nil => exact absurd hr hrn
        | cons a t => simp
      rw [if_pos hlen, if_pos ⟨h, hrn⟩]
  · rw [if_neg h, if_neg (fun hand => h hand.1)]

/-- C6: classification is a pure function of the filename's lowercased
trailing extension as the specification words it — the substring from the
last `'.'` onward when that `'.'` is not final — and returns Binary exactly
when that extension is a member of the fixed binary-extension set, Text
otherwise (including the no-extension case, where the extension is empty
and the set contains no empty string). -/
theorem classifier_matches_spec_extension (name : String) :
    fileExtension name = specExtension name
      ∧ isBinaryName name = binaryFileExtensions.contains (specExtension name) :=
  ⟨fileExtension_eq_specExtension name,
    by unfold isBinaryName; rw [fileExtension_eq_specExtension]⟩

/-- C10: a dotfile name whose only dot is its first character takes the
whole lowercased name as its extension; a name ending in `'.'` yields an
empty extension and classifies as Text; and matching is case-insensitive
(`a.PNG` classifies Binary, `.png` classifies Binary, `abc.` does not). -/
theorem dotfile_and_trailing_dot_rules :
    (∀ (name : String) (rest : List Char), name.data = '.' :: rest → '.' ∉ rest → rest ≠ [] →
        fileExtension name = lowerStr name)
      ∧ (∀ name : String, name.data.getLast? = some '.' →
          fileExtension name = "" ∧ isBinaryName name = false)
      ∧ isBinaryName ".png" = true ∧ isBinaryName "a.PNG" = true
      ∧ isBinaryName "abc." = false := by
  refine ⟨?_, ?_, by decide, by decide, by decide⟩
  · intro name rest hdata hnm hne
    have h1 : extSuffix rest = none := extSuffix_none_of_not_mem rest hnm
    have h2 : extSuffix name.data = some ('.' :: rest) := by
      rw [hdata, extSuffix_cons, h1]
      simp
    have hlen : 2 ≤ ('.' :: rest).length := by
      cases hr : rest with
      | nil => exact absurd hr hne
      | cons a t => simp
    unfold fileExtension
    rw [h2]
    show (if 2 ≤ ('.' :: rest).length then lowerStr ⟨'.' :: rest⟩ else "") = lowerStr name
    rw [if_pos hlen]
    exact congrArg lowerStr (String.ext hdata.symm)
  · intro name hlast
    have hrev : name.data.reverse.head? = some '.' := by
      rw [List.head?_reverse]; exact hlast
    cases hr : name.data.reverse with
    | nil => rw [hr] at hrev; exact absurd hrev (by simp)
    | cons a t =>
      have ha : a = '.' := by rw [hr] at hrev; simpa using hrev
      have hmem : '.' ∈ name.data := by
        have h5 : '.' ∈ name.data.reverse := by rw [hr, ha]; simp
        simpa using h5
      have hfe : fileExtension name = "" := by
        unfold fileExtension
        rw [extSuffix_eq_spec, if_pos hmem, hr, ha]
        simp [List.takeWhile_cons]
      exact ⟨hfe, by unfold isBinaryName; rw [hfe]; decide⟩

/-- Witness for C10 at the concrete names `.png` and `abc.`. -/
theorem dotfile_and_trailing_dot_rules_witness :
    fileExtension ".png" = lowerStr ".png" ∧ fileExtension "abc." = "" :=
  ⟨dotfile_and_trailing_dot_rules.1 ".png" ['p', 'n', 'g'] (by decide) (by decide) (by decide),
    (dotfile_and_trailing_dot_rules.2.1 "abc." (by decide)).1⟩

/-! ### Finalization (C7) -/

/-- C7: with JSZip and the root container available, an empty archive at
finalize time yields the distinguished "nothing exported" outcome (no
artifact), a non-empty archive yields exactly one artifact, and the
"nothing exported" outcome is distinct from every mid-run abort. -/
theorem finalize_distinguishes_empty (items : List Item) :
    (buildArchive (entriesOf (processList "" items)) = [] →
        exportRun true true items = RunOutcome.nothingExported)
      ∧ (buildArchive (entriesOf (processList "" items)) ≠ [] →
        exportRun true true items
          = RunOutcome.artifact (buildArchive (entriesOf (processList "" items))))
      ∧ (∀ m, RunOutcome.nothingExported ≠ RunOutcome.aborted m) := by
  refine ⟨?_, ?_, ?_⟩
  · intro h
    simp [exportRun, h]
  · intro h
    have hl : 0 < (buildArchive (entriesOf (processList "" items))).length :=
      List.length_pos.mpr h
    simp [exportRun, hl]
  · intro m hne
    exact RunOutcome.noConfusion hne

/-- Witness for C7: the empty tree finalizes to "nothing exported"; a
one-file tree finalizes to exactly one artifact. -/
theorem finalize_distinguishes_empty_witness :
    exportRun true true [] = RunOutcome.nothingExported
      ∧ exportRun true true
          [Item.file "x.ts" (FileEnv.mk (some "let x=1;") false false none none none)]
        = RunOutcome.artifact [ZipOp.mk "x.ts" (Payload.text "let x=1;")] :=
  ⟨(finalize_distinguishes_empty []).1 rfl,
    ((finalize_distinguishes_empty
        [Item.file "x.ts" (FileEnv.mk (some "let x=1;") false false none none none)]).2.1
      (by decide)).trans (by decide)⟩

/-! ### Archive semantics (C8) -/

lemma beq_comm_str (a b : String) : (a == b) = (b == a) := by
  by_cases h : a = b
  · simp [h]
  · rw [beq_eq_false_iff_ne.mpr h, beq_eq_false_iff_ne.mpr (Ne.symm h)]

lemma any_path_map (ar : List ZipOp) (p : String) :
    ((ar.map ZipOp.path).any fun q => q == p) = ar.any fun e => e.path == p := by
  induction ar with
  | nil => rfl
  | cons a t ih => simp [List.any_cons, ih]

/-- `addEntry` keeps the path sequence unchanged on collision and appends
the new path otherwise. -/
lemma addEntry_map_path (ar : List ZipOp) (op : ZipOp) :
    (addEntry ar op).map ZipOp.path
      = if ar.any (fun e => e.path == op.path) then ar.map ZipOp.path
        else ar.map ZipOp.path ++ [op.path] := by
  unfold addEntry
  split
  · rw [List.map_map]
    apply List.map_congr_left
    intro e _
    show (if (e.path == op.path) = true then op else e).path = e.path
    by_cases he : (e.path == op.path) = true
    · rw [if_pos he]
      exact (eq_of_beq he).symm
    · rw [if_neg he]
  · rw [List.map_append]
    rfl

lemma addEntry_nodup (ar : List ZipOp) (op : ZipOp)
    (h : (ar.map ZipOp.path).Nodup) : ((addEntry ar op).map ZipOp.path).Nodup := by
  rw [addEntry_map_path]
  split
  · exact h
  · rename_i hfalse
    have hf : (ar.any fun e => e.path == op.path) = false := by
      cases hx : (ar.any fun e => e.path == op.path)
      · rfl
      · exact absurd hx hfalse
    have hnot : op.path ∉ ar.map ZipOp.path := by
      intro hmem
      rcases List.mem_map.mp hmem with ⟨e, he, hep⟩
      have hb := List.any_eq_false.mp hf e he
      exact hb (by rw [hep]; exact beq_self_eq_true op.path)
    rw [List.nodup_append]
    refine ⟨h, List.nodup_singleton op.path, ?_⟩
    intro a ha hb
    have hab : a = op.path := by simpa using hb
    rw [hab] at ha
    exact hnot ha

lemma buildArchive_nodup (ops : List ZipOp) : ((buildArchive ops).map ZipOp.path).Nodup := by
  unfold buildArchive
  suffices h : ∀ acc : List ZipOp, (acc.map ZipOp.path).Nodup →
      ((ops.foldl addEntry acc).map ZipOp.path).Nodup by
    exact h [] (by simp)
  induction ops with
  | nil =>
    intro acc ha
    simpa using ha
  | cons op rest ih =>
    intro acc ha
    rw [List.foldl_cons]
    exact ih (addEntry acc op) (addEntry_nodup acc op ha)

lemma getLast?_cons_or (a : ZipOp) (l : List ZipOp) :
    (a :: l).getLast? = l.getLast?.or (some a) := by
  rw [List.getLast?_eq_head?_reverse, List.reverse_cons, List.head?_append,
    List.head?_reverse]
  rfl

/-- `find?` after a sequence of adds returns the last add at the queried
path, falling back to the initial accumulator. -/
lemma foldl_addEntry_find? (ops : List ZipOp) : ∀ (acc : List ZipOp) (q : String),
    ((ops.foldl addEntry acc).find? fun e => e.path == q)
      = ((ops.filter fun e => e.path == q).getLast?).or (acc.find? fun e => e.path == q) := by
  induction ops with
  | nil =>
    intro acc q
    simp
  | cons op rest ih =>
    intro acc q
    rw [List.foldl_cons, ih]
    by_cases h : (op.path == q) = true
    · have hfil : (op :: rest).filter (fun e => e.path == q)
          = op :: rest.filter (fun e => e.path == q) := by
        rw [List.filter_cons, if_pos h]
      rw [hfil, getLast?_cons_or]
      cases hr : (rest.filter fun e => e.path == q).getLast? with
      | some e => rfl
      | none =>
        have hq : q = op.path := (eq_of_beq h).symm
        subst hq
        rw [addEntry_find?_eq acc op]
        rfl
    · have h' : (op.path == q) = false := by
        cases hb : (op.path == q)
        · rfl
        · exact absurd hb h
      have hfil : (op :: rest).filter (fun e => e.path == q)
          = rest.filter (fun e => e.path == q) := by
        rw [List.filter_cons, if_neg (by simp [h'])]
      have hne : q ≠ op.path := fun hh => h (by rw [hh]; exact beq_self_eq_true op.path)
      rw [hfil, addEntry_find?_ne acc op q hne]

lemma buildArchive_find? (ops : List ZipOp) (q : String) :
    ((buildArchive ops).find? fun e => e.path == q)
      = (ops.filter fun e => e.path == q).getLast? := by
  unfold buildArchive
  rw [foldl_addEntry_find? ops [] q]
  rw [show (([] : List ZipOp).find? fun e => e.path == q) = none from rfl, Option.or_none]

lemma keepFirst_cons (p : String) (rest : List String) :
    keepFirst (p :: rest) = p :: keepFirst (rest.filter fun q => q != p) := by
  rw [keepFirst]

/-- The path sequence after a sequence of adds: the accumulator's paths
followed by the first occurrences of the added paths not already present. -/
lemma foldl_addEntry_paths (ops : List ZipOp) : ∀ acc : List ZipOp,
    (ops.foldl addEntry acc).map ZipOp.path
      = acc.map ZipOp.path
          ++ keepFirst ((ops.map ZipOp.path).filter
              fun p => !((acc.map ZipOp.path).any fun q => q == p)) := by
  induction ops with
  | nil =>
    intro acc
    simp [keepFirst]
  | cons op rest ih =>
    intro acc
    rw [List.foldl_cons, ih (addEntry acc op), addEntry_map_path]
    by_cases h : acc.any (fun e => e.path == op.path) = true
    · rw [if_pos h]
      have hb : ((acc.map ZipOp.path).any fun q => q == op.path) = true := by
        rw [any_path_map]; exact h
      have hfil : ((op :: rest).map ZipOp.path).filter
            (fun p => !((acc.map ZipOp.path).any fun q => q == p))
          = (rest.map ZipOp.path).filter
              (fun p => !((acc.map ZipOp.path).any fun q => q == p)) := by
        rw [List.map_cons, List.filter_cons, if_neg (by simp [hb])]
      rw [hfil]
    · rw [if_neg h]
      have hb : ((acc.map ZipOp.path).any fun q => q == op.path) = false := by
        rw [any_path_map]; simpa using h
      have hfil : ((op :: rest).map ZipOp.path).filter
            (fun p => !((acc.map ZipOp.path).any fun q => q == p))
          = op.path :: (rest.map ZipOp.path).filter
              (fun p => !((acc.map ZipOp.path).any fun q => q == p)) := by
        rw [List.map_cons, List.filter_cons, if_pos (by simp [hb])]
      rw [hfil, keepFirst_cons, List.filter_filter]
      have hpred : ((rest.map ZipOp.path).filter
            fun p => !((acc.map ZipOp.path ++ [op.path]).any fun q => q == p))
          = (rest.map ZipOp.path).filter
              (fun a => (a != op.path) && !((acc.map ZipOp.path).any fun q => q == a)) := by
        apply List.filter_congr
        intro p _
        simp [List.any_append, List.any_cons, Bool.not_or, beq_comm_str op.path p, bne,
          Bool.and_comm]
      rw [hpred, ← List.append_cons]

/-- C8: over any sequence of adds, the finalized Archive has at most one
entry per `fullPath` (path list is duplicate-free), lookup at any path
returns exactly the last add at that path (last-write-wins), and the
archive's path sequence lists the distinct added paths in first-insertion
order. -/
theorem archive_last_write_wins (ops : List ZipOp) :
    ((buildArchive ops).map ZipOp.path).Nodup
      ∧ (∀ q, ((buildArchive ops).find? fun e => e.path == q)
            = (ops.filter fun e => e.path == q).getLast?)
      ∧ (buildArchive ops).map ZipOp.path = keepFirst (ops.map ZipOp.path) := by
  refine ⟨buildArchive_nodup ops, fun q => buildArchive_find? ops q, ?_⟩
  unfold buildArchive
  rw [foldl_addEntry_paths ops []]
  have h1 : ((ops.map ZipOp.path).filter
        fun p => !((([] : List ZipOp).map ZipOp.path).any fun q => q == p))
      = ops.map ZipOp.path :=
    List.filter_eq_self.mpr fun a _ => rfl
  rw [h1]
  rfl

end RorkExport
